import Mathlib

/-!
Verification of the generator pipeline in `11/generators-template.py`.

Strings are modelled as `List Char`.  Each generator stage is embedded as a
function on lists (a generator that has been fully drained), except where a
claim is about the suspended-execution behaviour of a generator, for which a
small step machine is used (`GrepGen` below).
-/

/-- Bool test: is `p` a prefix of `s`?  (Used by the model of `str.replace`.) -/
def prefixMatch : List Char → List Char → Bool
  | [], _ => true
  | _ :: _, [] => false
  | a :: p, b :: s => decide (a = b) && prefixMatch p s

/-- Bool test for the Python substring operator `pat in s`. -/
def hasSubstr (s pat : List Char) : Bool :=
  match s with
  | [] => pat.isEmpty
  | _ :: rest => prefixMatch pat s || hasSubstr rest pat

/-- Core of Python `str.replace` for a non-empty search string `old`:
scan left to right, replacing each non-overlapping occurrence of `old`
by `new`. -/
def replaceCore (old new : List Char) : List Char → List Char
  | [] => []
  | c :: rest =>
    if prefixMatch old (c :: rest) then
      new ++ replaceCore old new (rest.drop (old.length - 1))
    else
      c :: replaceCore old new rest
termination_by s => s.length
decreasing_by
  · simp only [List.length_drop, List.length_cons]
    omega
  · simp only [List.length_cons]
    omega

/-- Python `s.replace(old, new)`.  For empty `old`, CPython inserts `new`
before, between and after every character of `s`. -/
def pyReplace (s old new : List Char) : List Char :=
  if old = [] then new ++ s.flatMap (fun c => c :: new) else replaceCore old new s

/-- `search_and_replace` from the source: maps Python `str.replace` over the
stream of lines. -/
def search_and_replace (strings_list : List (List Char))
    (search_term new_term : List Char) : List (List Char) :=
  strings_list.map (fun line => pyReplace line search_term new_term)

/-- `count_adjacent` from the source: `itertools.groupby` collapses each
maximal run of consecutive equal elements into one group; the code yields
`(len(tuple(group)), element)` for each group. -/
def count_adjacent {α : Type} [DecidableEq α] : List α → List (Nat × α)
  | [] => []
  | a :: rest =>
    (1 + (rest.takeWhile (fun b => decide (b = a))).length, a) ::
      count_adjacent (rest.dropWhile (fun b => decide (b = a)))
termination_by l => l.length
decreasing_by
  simp only [List.length_cons]
  exact Nat.lt_succ_of_le (List.Sublist.length_le (List.dropWhile_sublist _))

/-- Python string comparison `s <= t` (lexicographic by code point). -/
def strLe : List Char → List Char → Bool
  | [], _ => true
  | _ :: _, [] => false
  | a :: s, b :: t => if a = b then strLe s t else decide (a < b)

/-- Python tuple comparison `p <= q` on `(count, name)` pairs: count first,
then the name string. -/
def pairLe (p q : Nat × List Char) : Bool :=
  if p.1 = q.1 then strLe p.2 q.2 else decide (p.1 < q.1)

/-- Insert `a` into `l` in front of the first element `b` with `le a b`. -/
def insertOrd {α : Type} (le : α → α → Bool) (a : α) : List α → List α
  | [] => [a]
  | b :: l => if le a b then a :: b :: l else b :: insertOrd le a l

/-- Model of Python `sorted(l)` for the total preorder `le`: a stable
insertion sort.  A stable sort for a total preorder has a unique result, so
this agrees extensionally with CPython's sort. -/
def pySorted {α : Type} (le : α → α → Bool) : List α → List α
  | [] => []
  | a :: l => insertOrd le a (pySorted le l)

/-- Model of `sorted(pairs, reverse=True)` in Driver A: CPython sorts
descending with the element comparison reversed, keeping equal elements in
their original order. -/
def sortedRev (l : List (Nat × List Char)) : List (Nat × List Char) :=
  pySorted (fun p q => pairLe q p) l

/-- One `Counter` update: increment the entry of `a`, or append a fresh
`(a, 1)` entry at the end (Python dicts keep insertion order). -/
def bump {α : Type} [DecidableEq α] (a : α) : List (α × Nat) → List (α × Nat)
  | [] => [(a, 1)]
  | (b, n) :: rest => if a = b then (b, n + 1) :: rest else (b, n) :: bump a rest

/-- Model of `collections.Counter(l)`: an association list from element to
total count, in first-seen order. -/
def tally {α : Type} [DecidableEq α] (l : List α) : List (α × Nat) :=
  l.foldl (fun acc a => bump a acc) []

/-- Count recorded for `x` in an association list (0 when absent). -/
def lookupTally {α : Type} [DecidableEq α] (x : α) : List (α × Nat) → Nat
  | [] => 0
  | (b, n) :: rest => if x = b then n else lookupTally x rest

/-- The distinct elements of `l` in order of first occurrence. -/
def firstSeen {α : Type} [DecidableEq α] (l : List α) : List α :=
  l.foldl (fun acc a => if a ∈ acc then acc else acc ++ [a]) []

/-- Model of `Counter.most_common()`: the entries sorted by count
descending; CPython uses a stable sort keyed on the count only, so ties
keep insertion order. -/
def most_common (t : List (List Char × Nat)) : List (List Char × Nat) :=
  pySorted (fun p q => decide (q.2 ≤ p.2)) t

/-! ### Regular expressions

The program filters lines with `re.compile` / `re.search`.  The regex
fragment the pipeline relies on is embedded: literal characters, `.`,
the postfix repeats `*`, `+`, `?` (with the lazy marker `?`, which does not
change boolean search results), alternation `|`, groups `(...)`, an
optional leading `^` anchor, and escaped punctuation.  Other constructs
are rejected by the pattern parser. -/

inductive RE : Type
  | empty : RE
  | eps : RE
  | lit : Char → RE
  | dot : RE
  | seq : RE → RE → RE
  | alt : RE → RE → RE
  | star : RE → RE
deriving DecidableEq

/-- Declarative matching semantics: `Matches r s` holds when the regular
expression `r` matches exactly the string `s`. -/
inductive Matches : RE → List Char → Prop
  | eps : Matches .eps []
  | lit (c : Char) : Matches (.lit c) [c]
  | dot (c : Char) : Matches .dot [c]
  | seq {r1 r2 s1 s2} : Matches r1 s1 → Matches r2 s2 → Matches (.seq r1 r2) (s1 ++ s2)
  | altL {r1 r2 s} : Matches r1 s → Matches (.alt r1 r2) s
  | altR {r1 r2 s} : Matches r2 s → Matches (.alt r1 r2) s
  | starNil {r} : Matches (.star r) []
  | starCons {r s1 s2} :
      Matches r s1 → Matches (.star r) s2 → Matches (.star r) (s1 ++ s2)

/-- Does `r` match the empty string? -/
def nullable : RE → Bool
  | .empty => false
  | .eps => true
  | .lit _ => false
  | .dot => false
  | .seq r1 r2 => nullable r1 && nullable r2
  | .alt r1 r2 => nullable r1 || nullable r2
  | .star _ => true

/-- Brzozowski derivative of `r` by the character `c`. -/
def rderiv (r : RE) (c : Char) : RE :=
  match r with
  | .empty => .empty
  | .eps => .empty
  | .lit d => if d = c then .eps else .empty
  | .dot => .eps
  | .seq r1 r2 =>
      if nullable r1 then .alt (.seq (rderiv r1 c) r2) (rderiv r2 c)
      else .seq (rderiv r1 c) r2
  | .alt r1 r2 => .alt (rderiv r1 c) (rderiv r2 c)
  | .star r1 => .seq (rderiv r1 c) (.star r1)

/-- Does `r` match some prefix of `s`?  (An anchored `re.search`.) -/
def matchHere (r : RE) : List Char → Bool
  | [] => nullable r
  | c :: s => nullable r || matchHere (rderiv r c) s

/-- Does `r` match a substring of `s` starting at any position?
(Unanchored `re.search`.) -/
def reSearch (r : RE) : List Char → Bool
  | [] => nullable r
  | c :: s => matchHere r (c :: s) || reSearch r s

inductive PatternError : Type
  | err : String → PatternError
deriving DecidableEq

/-- After a repeat operator: allow one lazy marker `?`, reject a further
repeat (`re.error: multiple repeat`). -/
def repeatTail (r : RE) (rest : List Char) : Except PatternError (RE × List Char) :=
  match rest with
  | '?' :: rest2 =>
    match rest2 with
    | c :: _ =>
      if c = '*' || c = '+' || c = '?' then .error (.err "multiple repeat")
      else .ok (r, rest2)
    | [] => .ok (r, rest2)
  | c :: _ =>
    if c = '*' || c = '+' then .error (.err "multiple repeat") else .ok (r, rest)
  | [] => .ok (r, rest)

mutual

/-- Alternation level of the pattern grammar: `cat ('|' alt)?`. -/
def parseAlt : Nat → List Char → Except PatternError (RE × List Char)
  | 0, _ => .error (.err "pattern too complex")
  | fuel + 1, s =>
    match parseCat fuel s with
    | .error e => .error e
    | .ok (r, rest) =>
      match rest with
      | '|' :: rest2 =>
        match parseAlt fuel rest2 with
        | .error e => .error e
        | .ok (r2, rest3) => .ok (.alt r r2, rest3)
      | _ => .ok (r, rest)

/-- Concatenation level: a possibly empty sequence of repeated atoms,
stopping at `)`, `|` or the end of the pattern. -/
def parseCat : Nat → List Char → Except PatternError (RE × List Char)
  | 0, _ => .error (.err "pattern too complex")
  | fuel + 1, s =>
    match s with
    | [] => .ok (.eps, [])
    | c :: _ =>
      if c = ')' || c = '|' then .ok (.eps, s)
      else
        match parseRep fuel s with
        | .error e => .error e
        | .ok (r, rest) =>
          match parseCat fuel rest with
          | .error e => .error e
          | .ok (r2, rest2) => .ok (.seq r r2, rest2)

/-- An atom with an optional postfix repeat operator. -/
def parseRep : Nat → List Char → Except PatternError (RE × List Char)
  | 0, _ => .error (.err "pattern too complex")
  | fuel + 1, s =>
    match parseAtom fuel s with
    | .error e => .error e
    | .ok (r, rest) =>
      match rest with
      | '*' :: rest2 => repeatTail (.star r) rest2
      | '+' :: rest2 => repeatTail (.seq r (.star r)) rest2
      | '?' :: rest2 => repeatTail (.alt r .eps) rest2
      | _ => .ok (r, rest)

/-- A single atom: literal, `.`, escape, or parenthesised group. -/
def parseAtom : Nat → List Char → Except PatternError (RE × List Char)
  | 0, _ => .error (.err "pattern too complex")
  | fuel + 1, s =>
    match s with
    | [] => .error (.err "missing atom")
    | '(' :: rest =>
      match parseAlt fuel rest with
      | .error e => .error e
      | .ok (r, rest2) =>
        match rest2 with
        | ')' :: rest3 => .ok (r, rest3)
        | _ => .error (.err "missing ), unterminated subpattern")
    | '.' :: rest => .ok (.dot, rest)
    | '\\' :: rest =>
      match rest with
      | [] => .error (.err "bad escape (end of pattern)")
      | d :: rest2 =>
        if d.isAlphanum then .error (.err "unsupported escape")
        else .ok (.lit d, rest2)
    | c :: rest =>
      if c = '*' || c = '+' || c = '?' then .error (.err "nothing to repeat")
      else if c = ')' then .error (.err "unmatched parenthesis")
      else if c = '^' || c = '$' || c = '[' || c = '{' then
        .error (.err "unsupported construct")
      else .ok (.lit c, rest)

end

/-- Parse a whole pattern body (no leading anchor). -/
def compileBody (anchored : Bool) (body : List Char) :
    Except PatternError (Bool × RE) :=
  match parseAlt (4 * body.length + 8) body with
  | .error e => .error e
  | .ok (r, []) => .ok (anchored, r)
  | .ok (_, _ :: _) => .error (.err "unbalanced parenthesis")

/-- Model of `re.compile(pattern)`: a leading `^` anchors the search at the
start of the string; the rest is parsed into an `RE`. -/
def compile (pattern : List Char) : Except PatternError (Bool × RE) :=
  match pattern with
  | '^' :: body => compileBody true body
  | _ => compileBody false pattern

/-- Model of `re.search(compiled, line)` as a Bool. -/
def patternSearch (p : Bool × RE) (s : List Char) : Bool :=
  if p.1 then matchHere p.2 s else reSearch p.2 s

/-- `grep` from the source, fully drained: compile the pattern once, then
keep exactly the lines the compiled pattern matches. -/
def grep (string_list : List (List Char)) (pattern : List Char) :
    Except PatternError (List (List Char)) :=
  match compile pattern with
  | .error e => .error e
  | .ok p => .ok (string_list.filter (fun line => patternSearch p line))

/-! ### The `grep` generator as a step machine

`grep` is a generator function: calling it runs none of its body.  The body
runs when the first element is requested; it compiles the pattern once and
then scans.  `GrepGen` is the suspended generator, `grepNext` one `next()`
call. -/

inductive GrepGen : Type
  | start : List (List Char) → List Char → GrepGen
  | running : (Bool × RE) → List (List Char) → GrepGen
deriving DecidableEq

inductive GrepStep : Type
  | yield : List Char → GrepGen → GrepStep
  | stop : GrepStep
  | raise : PatternError → GrepStep
deriving DecidableEq

/-- Calling the generator function `grep(...)`: in Python this returns a
suspended generator without executing any of the body, so it cannot raise. -/
def grepCall (string_list : List (List Char)) (pattern : List Char) :
    Except PatternError GrepGen :=
  .ok (.start string_list pattern)

/-- Resume the compiled scanning loop. -/
def grepResume (p : Bool × RE) : List (List Char) → GrepStep
  | [] => .stop
  | line :: rest =>
    if patternSearch p line then .yield line (.running p rest)
    else grepResume p rest

/-- One `next()` on the generator. -/
def grepNext : GrepGen → GrepStep
  | .start ls pat =>
    match compile pat with
    | .error e => .raise e
    | .ok p => grepResume p ls
  | .running p ls => grepResume p ls

/-! ### The two driver computations

Both drivers are modelled from the point where the lines reach the
substring-replacer stage (`search_and_replace(lines, 'import ', '')`). -/

def importTerm : List Char := "import ".toList

/-- Driver A: replace, materialise and sort the lines, run-length count,
then `sorted(..., reverse=True)` on the `(count, name)` pairs. -/
def driverA (lines : List (List Char)) : List (Nat × List Char) :=
  sortedRev (count_adjacent (pySorted strLe (search_and_replace lines importTerm [])))

/-- Driver B: replace, build a `Counter`, and take `most_common()`,
presented as `(count, name)` pairs as the printing loop does. -/
def driverB (lines : List (List Char)) : List (Nat × List Char) :=
  (most_common (tally (search_and_replace lines importTerm []))).map
    (fun p => (p.2, p.1))

/-- The search semantics claimed by the spec: an unanchored pattern may
match anywhere in the string; a pattern anchored by a leading `^` must
match starting at position 0.  Neither requires the match to span the whole
string. -/
def SearchSem (anch : Bool) (r : RE) (s : List Char) : Prop :=
  if anch then ∃ p q, s = p ++ q ∧ Matches r p
  else ∃ u p q, s = (u ++ p) ++ q ∧ Matches r p

/-! ### Lemmas about the substring replacer -/

/-- A string with no occurrence of the (non-empty) search term is returned
unchanged by the replacement scan. -/
theorem replaceCore_of_no_occurrence (old new : List Char) (s : List Char)
    (h : hasSubstr s old = false) : replaceCore old new s = s := by
  induction s using replaceCore.induct old new with
  | case1 => simp [replaceCore]
  | case2 c rest hpre ih =>
    rw [hasSubstr] at h
    simp only [Bool.or_eq_false_iff] at h
    exact absurd hpre (by simp [h.1])
  | case3 c rest hpre ih =>
    rw [hasSubstr] at h
    simp only [Bool.or_eq_false_iff] at h
    rw [replaceCore, if_neg (by simp [hpre])]
    rw [ih h.2]

theorem pyReplace_of_no_occurrence (s old new : List Char) (hne : old ≠ [])
    (h : hasSubstr s old = false) : pyReplace s old new = s := by
  rw [pyReplace, if_neg hne]
  exact replaceCore_of_no_occurrence old new s h

/-- Replacing the empty string by the empty string is the identity. -/
theorem pyReplace_nil_nil (s : List Char) : pyReplace s [] [] = s := by
  rw [pyReplace, if_pos rfl]
  simp [List.flatMap_singleton' s]

/-- What CPython does for an empty search string: the replacement is
inserted before, between and after every character. -/
theorem pyReplace_nil (s new : List Char) :
    pyReplace s [] new = new ++ s.flatMap (fun c => c :: new) := by
  rw [pyReplace, if_pos rfl]

/-! ### Lemmas about the run-length counter -/

theorem takeWhile_eq_rep {α : Type} [DecidableEq α] (a : α) (l : List α) :
    l.takeWhile (fun b => decide (b = a))
      = List.replicate (l.takeWhile (fun b => decide (b = a))).length a := by
  apply List.eq_replicate_of_mem
  intro b hb
  simpa using List.mem_takeWhile_imp hb

/-- Replaying each `(count, element)` pair as `count` copies of `element`
reproduces the input: the pairs cover the whole input, in order, with the
counts equal to the run lengths. -/
theorem count_adjacent_flatMap {α : Type} [DecidableEq α] (l : List α) :
    (count_adjacent l).flatMap (fun p => List.replicate p.1 p.2) = l := by
  induction l using count_adjacent.induct with
  | case1 => simp [count_adjacent]
  | case2 a rest ih =>
    rw [count_adjacent]
    simp only [List.flatMap_cons]
    rw [ih]
    have hlen : List.replicate (1 + (rest.takeWhile (fun b => decide (b = a))).length) a
        = a :: rest.takeWhile (fun b => decide (b = a)) := by
      rw [Nat.add_comm, List.replicate_succ]
      rw [← takeWhile_eq_rep]
    rw [hlen]
    simp only [List.cons_append, List.cons.injEq, true_and]
    rw [List.takeWhile_append_dropWhile]

/-- Every produced count is positive: no pair is produced for an empty run. -/
theorem count_adjacent_pos {α : Type} [DecidableEq α] (l : List α) :
    ∀ p ∈ count_adjacent l, 0 < p.1 := by
  induction l using count_adjacent.induct with
  | case1 => simp [count_adjacent]
  | case2 a rest ih =>
    rw [count_adjacent]
    intro p hp
    rcases List.mem_cons.mp hp with h | h
    · rw [h]
      show 0 < 1 + _
      omega
    · exact ih p h

theorem dropWhile_head_false {α : Type} (p : α → Bool) (l : List α) (b : α) (t : List α)
    (h : l.dropWhile p = b :: t) : p b = false := by
  induction l with
  | nil => simp [List.dropWhile] at h
  | cons c l ih =>
    rw [List.dropWhile_cons] at h
    by_cases hc : p c = true
    · rw [if_pos hc] at h
      exact ih h
    · rw [if_neg hc] at h
      cases h
      simpa using hc

theorem count_adjacent_head_snd {α : Type} [DecidableEq α] (b : α) (t : List α)
    (q : Nat × α) (hq : q ∈ (count_adjacent (b :: t)).head?) : q.2 = b := by
  rw [count_adjacent] at hq
  simp only [List.head?_cons, Option.mem_def, Option.some.injEq] at hq
  rw [← hq]

/-- Consecutive produced pairs carry distinct elements: each pair covers a
maximal run, so runs are never split. -/
theorem count_adjacent_chain {α : Type} [DecidableEq α] (l : List α) :
    List.Chain' (fun p q : Nat × α => p.2 ≠ q.2) (count_adjacent l) := by
  induction l using count_adjacent.induct with
  | case1 => simp [count_adjacent]
  | case2 a rest ih =>
    rw [count_adjacent]
    rw [List.chain'_cons']
    refine ⟨?_, ih⟩
    intro q hq
    cases hrest : rest.dropWhile (fun b => decide (b = a)) with
    | nil =>
      rw [hrest] at hq
      simp [count_adjacent] at hq
    | cons b t =>
      rw [hrest] at hq
      have hb : b ≠ a := by
        have := dropWhile_head_false (fun x => decide (x = a)) rest b t hrest
        simpa using this
      have : q.2 = b := count_adjacent_head_snd b t q hq
      show (1 + _, a).2 ≠ q.2
      rw [this]
      exact fun hab => hb hab.symm

/-- The counts sum to the input length. -/
theorem count_adjacent_sum {α : Type} [DecidableEq α] (l : List α) :
    ((count_adjacent l).map Prod.fst).sum = l.length := by
  conv_rhs => rw [← count_adjacent_flatMap l]
  rw [List.length_flatMap]
  congr 1
  apply List.map_congr_left
  intro p _
  simp

/-- Summing the produced counts grouped by element gives each element's
total number of occurrences. -/
theorem count_adjacent_count {α : Type} [DecidableEq α] (l : List α) (x : α) :
    (((count_adjacent l).filter (fun p => decide (p.2 = x))).map Prod.fst).sum
      = l.count x := by
  induction l using count_adjacent.induct with
  | case1 => simp [count_adjacent]
  | case2 a rest ih =>
    rw [count_adjacent]
    have hsplit : rest.count x
        = (rest.takeWhile (fun b => decide (b = a))).count x
          + (rest.dropWhile (fun b => decide (b = a))).count x := by
      conv_lhs => rw [← List.takeWhile_append_dropWhile (fun b => decide (b = a)) rest]
      rw [List.count_append]
    by_cases hx : x = a
    · have hfil : (((1 + (rest.takeWhile (fun b => decide (b = a))).length, a) ::
            count_adjacent (rest.dropWhile (fun b => decide (b = a)))).filter
              (fun p => decide (p.2 = x)))
          = (1 + (rest.takeWhile (fun b => decide (b = a))).length, a) ::
            ((count_adjacent (rest.dropWhile (fun b => decide (b = a)))).filter
              (fun p => decide (p.2 = x))) := by
        rw [List.filter_cons]
        simp [hx.symm]
      rw [hfil]
      simp only [List.map_cons, List.sum_cons]
      rw [ih]
      have htw : (rest.takeWhile (fun b => decide (b = a))).count x
          = (rest.takeWhile (fun b => decide (b = a))).length := by
        conv_lhs => rw [takeWhile_eq_rep a rest]
        simp [List.count_replicate, hx]
      have h1 : (a :: rest).count x = rest.count x + 1 := by
        simp [List.count_cons, hx]
      rw [h1, hsplit, htw]
      omega
    · have hfil : (((1 + (rest.takeWhile (fun b => decide (b = a))).length, a) ::
            count_adjacent (rest.dropWhile (fun b => decide (b = a)))).filter
              (fun p => decide (p.2 = x)))
          = ((count_adjacent (rest.dropWhile (fun b => decide (b = a)))).filter
              (fun p => decide (p.2 = x))) := by
        rw [List.filter_cons]
        simp [Ne.symm hx]
      rw [hfil, ih]
      have htw0 : (rest.takeWhile (fun b => decide (b = a))).count x = 0 := by
        conv_lhs => rw [takeWhile_eq_rep a rest]
        simp [List.count_replicate, Ne.symm hx]
      have h1 : (a :: rest).count x = rest.count x := by
        simp [List.count_cons, hx]
      rw [h1, hsplit, htw0]
      omega

/-! ### The orderings used by the drivers -/

theorem strLe_total (s t : List Char) : strLe s t = true ∨ strLe t s = true := by
  induction s generalizing t with
  | nil => left; rfl
  | cons a s ih =>
    cases t with
    | nil => right; rfl
    | cons b t =>
      by_cases hab : a = b
      · subst hab
        rcases ih t with h | h
        · left; rw [strLe, if_pos rfl]; exact h
        · right; rw [strLe, if_pos rfl]; exact h
      · rcases lt_or_gt_of_ne hab with h | h
        · left; rw [strLe, if_neg hab]; exact decide_eq_true h
        · right; rw [strLe, if_neg (Ne.symm hab)]; exact decide_eq_true h

theorem strLe_trans (s t u : List Char) (h1 : strLe s t = true)
    (h2 : strLe t u = true) : strLe s u = true := by
  induction s generalizing t u with
  | nil => rfl
  | cons a s ih =>
    cases t with
    | nil => exact absurd h1 (by simp [strLe])
    | cons b t =>
      cases u with
      | nil => exact absurd h2 (by simp [strLe])
      | cons c u =>
        rw [strLe] at h1 h2 ⊢
        by_cases hab : a = b
        · subst hab
          rw [if_pos rfl] at h1
          by_cases hbc : a = c
          · subst hbc
            rw [if_pos rfl] at h2
            rw [if_pos rfl]
            exact ih t u h1 h2
          · rw [if_neg hbc] at h2
            rw [if_neg hbc]
            exact h2
        · rw [if_neg hab] at h1
          have hab2 : a < b := of_decide_eq_true h1
          by_cases hbc : b = c
          · subst hbc
            rw [if_neg hab]
            exact decide_eq_true hab2
          · rw [if_neg hbc] at h2
            have hbc2 : b < c := of_decide_eq_true h2
            have hac : a < c := lt_trans hab2 hbc2
            rw [if_neg (ne_of_lt hac)]
            exact decide_eq_true hac

theorem strLe_antisymm (s t : List Char) (h1 : strLe s t = true)
    (h2 : strLe t s = true) : s = t := by
  induction s generalizing t with
  | nil =>
    cases t with
    | nil => rfl
    | cons b t => exact absurd h2 (by simp [strLe])
  | cons a s ih =>
    cases t with
    | nil => exact absurd h1 (by simp [strLe])
    | cons b t =>
      rw [strLe] at h1 h2
      by_cases hab : a = b
      · subst hab
        rw [if_pos rfl] at h1 h2
        rw [ih t h1 h2]
      · rw [if_neg hab] at h1
        rw [if_neg (Ne.symm hab)] at h2
        have hab2 : a < b := of_decide_eq_true h1
        have hba2 : b < a := of_decide_eq_true h2
        exact absurd (lt_trans hab2 hba2) (lt_irrefl a)

theorem pairLe_total (p q : Nat × List Char) : pairLe p q = true ∨ pairLe q p = true := by
  rw [pairLe, pairLe]
  by_cases h : p.1 = q.1
  · rw [if_pos h, if_pos h.symm]
    exact strLe_total p.2 q.2
  · rw [if_neg h, if_neg (Ne.symm h)]
    rcases Nat.lt_or_ge p.1 q.1 with hlt | hge
    · left; exact decide_eq_true hlt
    · right; exact decide_eq_true (Nat.lt_of_le_of_ne hge (Ne.symm h))

theorem pairLe_trans (p q r : Nat × List Char) (h1 : pairLe p q = true)
    (h2 : pairLe q r = true) : pairLe p r = true := by
  rw [pairLe] at h1 h2 ⊢
  by_cases e1 : p.1 = q.1
  · rw [if_pos e1] at h1
    by_cases e2 : q.1 = r.1
    · rw [if_pos e2] at h2
      rw [if_pos (e1.trans e2)]
      exact strLe_trans p.2 q.2 r.2 h1 h2
    · rw [if_neg e2] at h2
      have : q.1 < r.1 := of_decide_eq_true h2
      rw [if_neg (by omega)]
      exact decide_eq_true (by omega)
  · rw [if_neg e1] at h1
    have l1 : p.1 < q.1 := of_decide_eq_true h1
    by_cases e2 : q.1 = r.1
    · rw [if_neg (by omega)]
      exact decide_eq_true (by omega)
    · rw [if_neg e2] at h2
      have l2 : q.1 < r.1 := of_decide_eq_true h2
      rw [if_neg (by omega)]
      exact decide_eq_true (by omega)

/-! ### Generic facts about the stable insertion sort -/

theorem mem_insertOrd {α : Type} (le : α → α → Bool) (a x : α) (l : List α) :
    x ∈ insertOrd le a l ↔ x = a ∨ x ∈ l := by
  induction l with
  | nil => simp [insertOrd]
  | cons b l ih =>
    rw [insertOrd]
    by_cases h : le a b
    · rw [if_pos h]; simp
    · rw [if_neg h]
      simp only [List.mem_cons, ih]
      tauto

theorem perm_insertOrd {α : Type} (le : α → α → Bool) (a : α) (l : List α) :
    List.Perm (insertOrd le a l) (a :: l) := by
  induction l with
  | nil => simp [insertOrd]
  | cons b l ih =>
    rw [insertOrd]
    by_cases h : le a b
    · rw [if_pos h]
    · rw [if_neg h]
      exact (List.Perm.cons b ih).trans (List.Perm.swap a b l)

theorem perm_pySorted {α : Type} (le : α → α → Bool) (l : List α) :
    List.Perm (pySorted le l) l := by
  induction l with
  | nil => simp [pySorted]
  | cons a l ih =>
    rw [pySorted]
    exact (perm_insertOrd le a _).trans (List.Perm.cons a ih)

theorem pairwise_insertOrd {α : Type} (le : α → α → Bool)
    (htot : ∀ x y, le x y = true ∨ le y x = true)
    (htrans : ∀ x y z, le x y = true → le y z = true → le x z = true)
    (a : α) (l : List α) (h : List.Pairwise (fun x y => le x y = true) l) :
    List.Pairwise (fun x y => le x y = true) (insertOrd le a l) := by
  induction l with
  | nil => simp [insertOrd]
  | cons b l ih =>
    rw [insertOrd]
    rcases List.pairwise_cons.mp h with ⟨hb, hl⟩
    by_cases hab : le a b = true
    · rw [if_pos hab]
      apply List.Pairwise.cons
      · intro y hy
        rcases List.mem_cons.mp hy with rfl | hy
        · exact hab
        · exact htrans a b y hab (hb y hy)
      · exact h
    · rw [if_neg hab]
      apply List.Pairwise.cons
      · intro y hy
        rcases (mem_insertOrd le a y l).mp hy with hya | hy
        · rcases htot a b with h1 | h1
          · exact absurd h1 hab
          · rw [hya]
            exact h1
        · exact hb y hy
      · exact ih hl

theorem pairwise_pySorted {α : Type} (le : α → α → Bool)
    (htot : ∀ x y, le x y = true ∨ le y x = true)
    (htrans : ∀ x y z, le x y = true → le y z = true → le x z = true)
    (l : List α) : List.Pairwise (fun x y => le x y = true) (pySorted le l) := by
  induction l with
  | nil => simp [pySorted]
  | cons a l ih =>
    rw [pySorted]
    exact pairwise_insertOrd le htot htrans a _ ih

theorem insertOrd_eq {α : Type} (le : α → α → Bool) (a : α) (l : List α) :
    insertOrd le a l
      = l.takeWhile (fun b => !le a b) ++ a :: l.dropWhile (fun b => !le a b) := by
  induction l with
  | nil => simp [insertOrd]
  | cons b l ih =>
    rw [insertOrd, List.takeWhile_cons, List.dropWhile_cons]
    by_cases h : le a b
    · rw [if_pos h]
      simp [h]
    · have h2 : le a b = false := by
        revert h
        cases le a b <;> simp
      rw [if_neg h]
      simp [h2, ih]

theorem filter_insertOrd_pos {α : Type} (le : α → α → Bool) (p : α → Bool) (a : α)
    (l : List α) (hpa : p a = true) (hcomp : ∀ b, p b = true → le a b = true) :
    (insertOrd le a l).filter p = a :: l.filter p := by
  rw [insertOrd_eq, List.filter_append, List.filter_cons, if_pos hpa]
  have htake : (l.takeWhile (fun b => !le a b)).filter p = [] := by
    rw [List.filter_eq_nil_iff]
    intro b hb
    have hble := List.mem_takeWhile_imp hb
    intro hpb
    rw [hcomp b hpb] at hble
    simp at hble
  rw [htake]
  conv_rhs => rw [← List.takeWhile_append_dropWhile (fun b => !le a b) l,
    List.filter_append, htake]
  simp

theorem filter_insertOrd_neg {α : Type} (le : α → α → Bool) (p : α → Bool) (a : α)
    (l : List α) (hpa : p a = false) :
    (insertOrd le a l).filter p = l.filter p := by
  rw [insertOrd_eq, List.filter_append, List.filter_cons, if_neg (by simp [hpa])]
  conv_rhs => rw [← List.takeWhile_append_dropWhile (fun b => !le a b) l,
    List.filter_append]

/-- Stability of the sort: filtering the sorted output down to one
equivalence class of the comparison gives exactly the input's elements of
that class, in input order. -/
theorem filter_pySorted {α : Type} (le : α → α → Bool) (p : α → Bool)
    (hkey : ∀ a b, p a = true → p b = true → le a b = true) (l : List α) :
    (pySorted le l).filter p = l.filter p := by
  induction l with
  | nil => rfl
  | cons a l ih =>
    rw [pySorted, List.filter_cons]
    by_cases hpa : p a = true
    · rw [if_pos hpa]
      rw [filter_insertOrd_pos le p a _ hpa (fun b hb => hkey a b hpa hb), ih]
    · have hpa2 : p a = false := by
        revert hpa
        cases p a <;> simp
      rw [if_neg (by simp [hpa2])]
      rw [filter_insertOrd_neg le p a _ hpa2, ih]

/-! ### The run-length counter on a sorted input -/

theorem count_adjacent_snd_mem {α : Type} [DecidableEq α] (m : List α) :
    ∀ p ∈ count_adjacent m, p.2 ∈ m := by
  induction m using count_adjacent.induct with
  | case1 => simp [count_adjacent]
  | case2 a rest ih =>
    rw [count_adjacent]
    intro p hp
    rcases List.mem_cons.mp hp with h | h
    · rw [h]
      exact List.mem_cons_self a rest
    · exact List.mem_cons_of_mem a ((List.dropWhile_sublist _).subset (ih p h))

/-- In a sorted list, the head does not reappear after its leading run. -/
theorem head_not_mem_dropWhile_sorted (a : List Char) (rest : List (List Char))
    (hs : List.Pairwise (fun s t => strLe s t = true) (a :: rest)) :
    a ∉ rest.dropWhile (fun b => decide (b = a)) := by
  intro ha
  cases hh : rest.dropWhile (fun b => decide (b = a)) with
  | nil =>
    rw [hh] at ha
    exact absurd ha (List.not_mem_nil a)
  | cons b t =>
    rw [hh] at ha
    have hbne : ¬ b = a := by simpa using dropWhile_head_false _ rest b t hh
    have hsrest : List.Pairwise (fun s t => strLe s t = true) rest :=
      (List.pairwise_cons.mp hs).2
    have hmem_rest : ∀ y ∈ rest, strLe a y = true := (List.pairwise_cons.mp hs).1
    rcases List.mem_cons.mp ha with hab | hat
    · exact hbne hab.symm
    · have hbt : List.Pairwise (fun s t => strLe s t = true) (b :: t) := by
        rw [← hh]
        exact hsrest.sublist (List.dropWhile_sublist _)
      have h1 : strLe b a = true := (List.pairwise_cons.mp hbt).1 a hat
      have hbrest : b ∈ rest := (List.dropWhile_sublist _).subset (by
        rw [hh]
        exact List.mem_cons_self b t)
      have h2 : strLe a b = true := hmem_rest b hbrest
      exact hbne (strLe_antisymm b a h1 h2)

/-- On a sorted input every pair produced by the run-length counter carries
an element of the input together with its total occurrence count, and
conversely. -/
theorem mem_count_adjacent_sorted (m : List (List Char))
    (hs : List.Pairwise (fun s t => strLe s t = true) m) (n : Nat) (x : List Char) :
    (n, x) ∈ count_adjacent m ↔ x ∈ m ∧ n = m.count x := by
  induction m using count_adjacent.induct with
  | case1 =>
    simp [count_adjacent]
  | case2 a rest ih =>
    have hsrest : List.Pairwise (fun s t => strLe s t = true) rest :=
      (List.pairwise_cons.mp hs).2
    have hsrest2 : List.Pairwise (fun s t => strLe s t = true)
        (rest.dropWhile (fun b => decide (b = a))) :=
      hsrest.sublist (List.dropWhile_sublist _)
    have hanotin : a ∉ rest.dropWhile (fun b => decide (b = a)) :=
      head_not_mem_dropWhile_sorted a rest hs
    have hsplit : rest.count a
        = (rest.takeWhile (fun b => decide (b = a))).count a
          + (rest.dropWhile (fun b => decide (b = a))).count a := by
      conv_lhs => rw [← List.takeWhile_append_dropWhile (fun b => decide (b = a)) rest]
      rw [List.count_append]
    have hcount_a : (a :: rest).count a
        = 1 + (rest.takeWhile (fun b => decide (b = a))).length := by
      have h1 : (a :: rest).count a = rest.count a + 1 := by
        simp [List.count_cons]
      have h2 : (rest.takeWhile (fun b => decide (b = a))).count a
          = (rest.takeWhile (fun b => decide (b = a))).length := by
        conv_lhs => rw [takeWhile_eq_rep a rest]
        simp [List.count_replicate]
      have h3 : (rest.dropWhile (fun b => decide (b = a))).count a = 0 :=
        List.count_eq_zero.mpr hanotin
      rw [h1, hsplit, h2, h3]
      omega
    rw [count_adjacent]
    constructor
    · intro hp
      rcases List.mem_cons.mp hp with h | h
      · have hx : x = a := congrArg Prod.snd h
        have hn : n = 1 + (rest.takeWhile (fun b => decide (b = a))).length :=
          congrArg Prod.fst h
        subst hx
        refine ⟨List.mem_cons_self x rest, ?_⟩
        rw [hn, hcount_a]
      · have := (ih hsrest2).mp h
        rcases this with ⟨hxm, hn⟩
        have hxa : x ≠ a := by
          intro hxa
          rw [hxa] at hxm
          exact hanotin hxm
        have hxrest : x ∈ rest := (List.dropWhile_sublist _).subset hxm
        refine ⟨List.mem_cons_of_mem a hxrest, ?_⟩
        have h2 : (rest.takeWhile (fun b => decide (b = a))).count x = 0 := by
          conv_lhs => rw [takeWhile_eq_rep a rest]
          simp [List.count_replicate, Ne.symm hxa]
        have h1 : (a :: rest).count x = rest.count x := by
          simp [List.count_cons, hxa]
        have hsplitx : rest.count x
            = (rest.takeWhile (fun b => decide (b = a))).count x
              + (rest.dropWhile (fun b => decide (b = a))).count x := by
          conv_lhs => rw [← List.takeWhile_append_dropWhile (fun b => decide (b = a)) rest]
          rw [List.count_append]
        rw [h1, hsplitx, h2]
        omega
    · rintro ⟨hxm, hn⟩
      by_cases hxa : x = a
      · subst hxa
        apply List.mem_cons.mpr
        left
        rw [hn, hcount_a]
      · have hxrest : x ∈ rest := by
          rcases List.mem_cons.mp hxm with h | h
          · exact absurd h hxa
          · exact h
        have hxrest2 : x ∈ rest.dropWhile (fun b => decide (b = a)) := by
          have hxtw : x ∉ rest.takeWhile (fun b => decide (b = a)) := by
            intro hx
            have := List.mem_takeWhile_imp hx
            simp at this
            exact hxa this
          have : x ∈ rest.takeWhile (fun b => decide (b = a))
              ++ rest.dropWhile (fun b => decide (b = a)) := by
            rw [List.takeWhile_append_dropWhile]
            exact hxrest
          rcases List.mem_append.mp this with h | h
          · exact absurd h hxtw
          · exact h
        apply List.mem_cons.mpr
        right
        apply (ih hsrest2).mpr
        refine ⟨hxrest2, ?_⟩
        have h2 : (rest.takeWhile (fun b => decide (b = a))).count x = 0 := by
          conv_lhs => rw [takeWhile_eq_rep a rest]
          simp [List.count_replicate, Ne.symm hxa]
        have h1 : (a :: rest).count x = rest.count x := by
          simp [List.count_cons, hxa]
        have hsplitx : rest.count x
            = (rest.takeWhile (fun b => decide (b = a))).count x
              + (rest.dropWhile (fun b => decide (b = a))).count x := by
          conv_lhs => rw [← List.takeWhile_append_dropWhile (fun b => decide (b = a)) rest]
          rw [List.count_append]
        rw [hn, h1, hsplitx, h2]
        omega

theorem count_adjacent_sorted_snd_nodup (m : List (List Char))
    (hs : List.Pairwise (fun s t => strLe s t = true) m) :
    ((count_adjacent m).map Prod.snd).Nodup := by
  induction m using count_adjacent.induct with
  | case1 => simp [count_adjacent]
  | case2 a rest ih =>
    have hsrest2 : List.Pairwise (fun s t => strLe s t = true)
        (rest.dropWhile (fun b => decide (b = a))) :=
      ((List.pairwise_cons.mp hs).2).sublist (List.dropWhile_sublist _)
    have hanotin : a ∉ rest.dropWhile (fun b => decide (b = a)) :=
      head_not_mem_dropWhile_sorted a rest hs
    rw [count_adjacent]
    simp only [List.map_cons]
    apply List.nodup_cons.mpr
    refine ⟨?_, ih hsrest2⟩
    intro hmem
    rcases List.mem_map.mp hmem with ⟨p, hp, hpa⟩
    have hps := count_adjacent_snd_mem _ p hp
    rw [hpa] at hps
    exact hanotin hps

theorem count_adjacent_sorted_nodup (m : List (List Char))
    (hs : List.Pairwise (fun s t => strLe s t = true) m) :
    (count_adjacent m).Nodup :=
  (count_adjacent_sorted_snd_nodup m hs).of_map _

/-! ### Lemmas about the tally (Counter) -/

theorem bump_fst {α : Type} [DecidableEq α] (a : α) (acc : List (α × Nat)) :
    (bump a acc).map Prod.fst
      = if a ∈ acc.map Prod.fst then acc.map Prod.fst
        else acc.map Prod.fst ++ [a] := by
  induction acc with
  | nil => simp [bump]
  | cons p acc ih =>
    obtain ⟨b, n⟩ := p
    rw [bump]
    by_cases hab : a = b
    · rw [if_pos hab]
      simp [hab]
    · rw [if_neg hab]
      simp only [List.map_cons]
      rw [ih]
      by_cases hmem : a ∈ acc.map Prod.fst
      · rw [if_pos hmem, if_pos (by simp [hmem])]
      · rw [if_neg hmem, if_neg (by simp [hab, hmem])]
        simp

theorem bump_lookup {α : Type} [DecidableEq α] (a x : α) (acc : List (α × Nat)) :
    lookupTally x (bump a acc)
      = if x = a then lookupTally x acc + 1 else lookupTally x acc := by
  induction acc with
  | nil =>
    by_cases hx : x = a
    · simp [bump, lookupTally, hx]
    · simp [bump, lookupTally, hx]
  | cons p acc ih =>
    obtain ⟨b, n⟩ := p
    rw [bump]
    by_cases hab : a = b
    · rw [if_pos hab]
      by_cases hx : x = b
      · have hxa : x = a := hx.trans hab.symm
        have e1 : lookupTally x ((b, n + 1) :: acc) = n + 1 := by
          rw [lookupTally, if_pos hx]
        have e2 : lookupTally x ((b, n) :: acc) = n := by
          rw [lookupTally, if_pos hx]
        rw [e1, if_pos hxa, e2]
      · have hxa : ¬ x = a := fun h => hx (h.trans hab)
        have e1 : lookupTally x ((b, n + 1) :: acc) = lookupTally x acc := by
          rw [lookupTally, if_neg hx]
        have e2 : lookupTally x ((b, n) :: acc) = lookupTally x acc := by
          rw [lookupTally, if_neg hx]
        rw [e1, if_neg hxa, e2]
    · rw [if_neg hab]
      by_cases hx : x = b
      · have hxa : ¬ x = a := fun h => hab (h.symm.trans hx)
        have e1 : lookupTally x ((b, n) :: bump a acc) = n := by
          rw [lookupTally, if_pos hx]
        have e2 : lookupTally x ((b, n) :: acc) = n := by
          rw [lookupTally, if_pos hx]
        rw [e1, if_neg hxa, e2]
      · have e1 : lookupTally x ((b, n) :: bump a acc) = lookupTally x (bump a acc) := by
          rw [lookupTally, if_neg hx]
        have e2 : lookupTally x ((b, n) :: acc) = lookupTally x acc := by
          rw [lookupTally, if_neg hx]
        rw [e1, e2, ih]

theorem bump_fst_nodup {α : Type} [DecidableEq α] (a : α) (acc : List (α × Nat))
    (h : (acc.map Prod.fst).Nodup) : ((bump a acc).map Prod.fst).Nodup := by
  rw [bump_fst]
  by_cases hmem : a ∈ acc.map Prod.fst
  · rw [if_pos hmem]
    exact h
  · rw [if_neg hmem]
    simp [List.nodup_append, h, hmem]

theorem mem_bump_fst {α : Type} [DecidableEq α] (a x : α) (acc : List (α × Nat)) :
    x ∈ (bump a acc).map Prod.fst ↔ x = a ∨ x ∈ acc.map Prod.fst := by
  rw [bump_fst]
  by_cases hmem : a ∈ acc.map Prod.fst
  · rw [if_pos hmem]
    constructor
    · intro h
      right
      exact h
    · intro h
      rcases h with h | h
      · rw [h]
        exact hmem
      · exact h
  · rw [if_neg hmem]
    simp [or_comm]

theorem mem_assoc_of_fst_nodup {α : Type} [DecidableEq α] (acc : List (α × Nat))
    (hnd : (acc.map Prod.fst).Nodup) (x : α) (n : Nat) :
    (x, n) ∈ acc ↔ x ∈ acc.map Prod.fst ∧ n = lookupTally x acc := by
  induction acc with
  | nil => simp [lookupTally]
  | cons p acc ih =>
    obtain ⟨b, m⟩ := p
    have hnd2 : (acc.map Prod.fst).Nodup := (List.nodup_cons.mp (by simpa using hnd)).2
    have hb : b ∉ acc.map Prod.fst := (List.nodup_cons.mp (by simpa using hnd)).1
    constructor
    · intro h
      rcases List.mem_cons.mp h with he | h
      · have h1 : x = b := congrArg Prod.fst he
        have h2 : n = m := congrArg Prod.snd he
        refine ⟨by simp [h1], ?_⟩
        rw [lookupTally, if_pos h1]
        exact h2
      · rcases (ih hnd2).mp h with ⟨hxm, hlk⟩
        have hxb : ¬ x = b := fun he => hb (he ▸ hxm)
        refine ⟨?_, ?_⟩
        · simp only [List.map_cons]
          exact List.mem_cons.mpr (Or.inr hxm)
        · rw [lookupTally, if_neg hxb]
          exact hlk
    · rintro ⟨hxm, hn⟩
      have hxm3 : x = b ∨ x ∈ acc.map Prod.fst := by
        simp only [List.map_cons] at hxm
        exact List.mem_cons.mp hxm
      rcases hxm3 with hxb | hxm2
      · apply List.mem_cons.mpr
        left
        rw [lookupTally, if_pos hxb] at hn
        rw [hxb, hn]
      · have hxb : ¬ x = b := fun he => hb (he ▸ hxm2)
        apply List.mem_cons.mpr
        right
        apply (ih hnd2).mpr
        rw [lookupTally, if_neg hxb] at hn
        exact ⟨hxm2, hn⟩

theorem foldl_bump_lookup {α : Type} [DecidableEq α] (l : List α)
    (acc : List (α × Nat)) (x : α) :
    lookupTally x (l.foldl (fun acc a => bump a acc) acc)
      = lookupTally x acc + l.count x := by
  induction l generalizing acc with
  | nil => simp
  | cons a l ih =>
    rw [List.foldl_cons, ih (bump a acc), bump_lookup]
    by_cases hx : x = a
    · rw [if_pos hx]
      simp [List.count_cons, hx]
      omega
    · rw [if_neg hx]
      simp [List.count_cons, hx]

theorem foldl_bump_fst_nodup {α : Type} [DecidableEq α] (l : List α)
    (acc : List (α × Nat)) (h : (acc.map Prod.fst).Nodup) :
    ((l.foldl (fun acc a => bump a acc) acc).map Prod.fst).Nodup := by
  induction l generalizing acc with
  | nil => exact h
  | cons a l ih =>
    rw [List.foldl_cons]
    exact ih (bump a acc) (bump_fst_nodup a acc h)

theorem foldl_bump_fst_mem {α : Type} [DecidableEq α] (l : List α)
    (acc : List (α × Nat)) (x : α) :
    x ∈ (l.foldl (fun acc a => bump a acc) acc).map Prod.fst
      ↔ x ∈ acc.map Prod.fst ∨ x ∈ l := by
  induction l generalizing acc with
  | nil => simp
  | cons a l ih =>
    rw [List.foldl_cons, ih (bump a acc)]
    rw [mem_bump_fst]
    simp [List.mem_cons]
    tauto

theorem foldl_bump_fst_firstSeen {α : Type} [DecidableEq α] (l : List α)
    (acc : List (α × Nat)) :
    (l.foldl (fun acc a => bump a acc) acc).map Prod.fst
      = l.foldl (fun acc a => if a ∈ acc then acc else acc ++ [a])
          (acc.map Prod.fst) := by
  induction l generalizing acc with
  | nil => rfl
  | cons a l ih =>
    rw [List.foldl_cons, List.foldl_cons, ih (bump a acc), bump_fst]

theorem tally_lookup {α : Type} [DecidableEq α] (l : List α) (x : α) :
    lookupTally x (tally l) = l.count x := by
  rw [tally, foldl_bump_lookup]
  simp [lookupTally]

theorem tally_fst_nodup {α : Type} [DecidableEq α] (l : List α) :
    ((tally l).map Prod.fst).Nodup := by
  rw [tally]
  exact foldl_bump_fst_nodup l [] (by simp)

theorem mem_tally {α : Type} [DecidableEq α] (l : List α) (x : α) (n : Nat) :
    (x, n) ∈ tally l ↔ x ∈ l ∧ n = l.count x := by
  rw [mem_assoc_of_fst_nodup (tally l) (tally_fst_nodup l) x n]
  rw [tally_lookup]
  have hmem : x ∈ (tally l).map Prod.fst ↔ x ∈ l := by
    rw [tally, foldl_bump_fst_mem]
    simp
  rw [hmem]

/-- The `Counter` keys are the distinct elements in first-seen order. -/
theorem tally_fst_firstSeen {α : Type} [DecidableEq α] (l : List α) :
    (tally l).map Prod.fst = firstSeen l := by
  rw [tally, firstSeen, foldl_bump_fst_firstSeen]
  simp

/-! ### Correctness of the derivative matcher -/

theorem matches_nil_nullable {r : RE} {s : List Char} (h : Matches r s) :
    s = [] → nullable r = true := by
  induction h with
  | eps => intro; rfl
  | lit c => intro hc; simp at hc
  | dot c => intro hc; simp at hc
  | seq h1 h2 ih1 ih2 =>
    intro hc
    rcases List.append_eq_nil.mp hc with ⟨e1, e2⟩
    rw [nullable, ih1 e1, ih2 e2]
    rfl
  | altL h ih =>
    intro hc
    rw [nullable, ih hc]
    rfl
  | altR h ih =>
    intro hc
    rw [nullable, ih hc]
    simp
  | starNil => intro; rfl
  | starCons h1 h2 ih1 ih2 => intro; rfl

theorem nullable_iff (r : RE) : nullable r = true ↔ Matches r [] := by
  constructor
  · intro h
    induction r with
    | empty => simp [nullable] at h
    | eps => exact Matches.eps
    | lit c => simp [nullable] at h
    | dot => simp [nullable] at h
    | seq r1 r2 ih1 ih2 =>
      rw [nullable, Bool.and_eq_true] at h
      exact Matches.seq (ih1 h.1) (ih2 h.2)
    | alt r1 r2 ih1 ih2 =>
      rw [nullable, Bool.or_eq_true] at h
      rcases h with h | h
      · exact Matches.altL (ih1 h)
      · exact Matches.altR (ih2 h)
    | star r1 ih => exact Matches.starNil
  · intro h
    exact matches_nil_nullable h rfl

theorem seq_inv {r1 r2 : RE} {t : List Char} (h : Matches (.seq r1 r2) t) :
    ∃ s1 s2, t = s1 ++ s2 ∧ Matches r1 s1 ∧ Matches r2 s2 := by
  cases h with
  | seq h1 h2 => exact ⟨_, _, rfl, h1, h2⟩

theorem alt_inv {r1 r2 : RE} {t : List Char} (h : Matches (.alt r1 r2) t) :
    Matches r1 t ∨ Matches r2 t := by
  cases h with
  | altL h => exact Or.inl h
  | altR h => exact Or.inr h

/-- A star match of a non-empty string peels off a non-empty first chunk. -/
theorem star_cons_inv {r : RE} {c : Char} {s : List Char}
    (h : Matches (.star r) (c :: s)) :
    ∃ s1 s2, s = s1 ++ s2 ∧ Matches r (c :: s1) ∧ Matches (.star r) s2 := by
  suffices H : ∀ r0 t, Matches r0 t → ∀ r2 : RE, r0 = .star r2 → ∀ c2 v, t = c2 :: v →
      ∃ u1 u2, v = u1 ++ u2 ∧ Matches r2 (c2 :: u1) ∧ Matches (.star r2) u2 by
    exact H _ _ h r rfl c s rfl
  intro r0 t h
  induction h with
  | eps => intro r2 hr; simp at hr
  | lit c => intro r2 hr; simp at hr
  | dot c => intro r2 hr; simp at hr
  | seq h1 h2 ih1 ih2 => intro r2 hr; simp at hr
  | altL h ih => intro r2 hr; simp at hr
  | altR h ih => intro r2 hr; simp at hr
  | starNil =>
    intro r2 hr c2 v ht
    simp at ht
  | @starCons r1 s1 s2 h1 h2 ih1 ih2 =>
    intro r2 hr c2 v ht
    have hr2 : r1 = r2 := RE.star.inj hr
    cases s1 with
    | nil =>
      exact ih2 r2 hr c2 v (by simpa using ht)
    | cons d s1 =>
      have hd : d = c2 := by
        have := congrArg (fun l => List.head? l) ht
        simpa using this
      have hv : s1 ++ s2 = v := by
        have := congrArg (fun l => List.tail l) ht
        simpa using this
      refine ⟨s1, s2, hv.symm, ?_, ?_⟩
      · rw [← hr2, ← hd]
        exact h1
      · rw [← hr2]
        exact h2

theorem rderiv_sound (r : RE) (c : Char) :
    ∀ s : List Char, Matches (rderiv r c) s → Matches r (c :: s) := by
  induction r with
  | empty => intro s h; cases h
  | eps => intro s h; cases h
  | lit d =>
    intro s h
    by_cases hdc : d = c
    · rw [rderiv, if_pos hdc] at h
      cases h
      rw [hdc]
      exact Matches.lit c
    · rw [rderiv, if_neg hdc] at h
      cases h
  | dot =>
    intro s h
    rw [rderiv] at h
    cases h
    exact Matches.dot c
  | seq r1 r2 ih1 ih2 =>
    intro s h
    by_cases hn : nullable r1 = true
    · rw [rderiv, if_pos hn] at h
      rcases alt_inv h with h | h
      · rcases seq_inv h with ⟨s1, s2, rfl, h1, h2⟩
        exact Matches.seq (ih1 s1 h1) h2
      · have h0 : Matches r1 [] := (nullable_iff r1).mp hn
        exact Matches.seq h0 (ih2 s h)
    · rw [rderiv, if_neg hn] at h
      rcases seq_inv h with ⟨s1, s2, rfl, h1, h2⟩
      exact Matches.seq (ih1 s1 h1) h2
  | alt r1 r2 ih1 ih2 =>
    intro s h
    rw [rderiv] at h
    rcases alt_inv h with h | h
    · exact Matches.altL (ih1 s h)
    · exact Matches.altR (ih2 s h)
  | star r1 ih =>
    intro s h
    rw [rderiv] at h
    rcases seq_inv h with ⟨s1, s2, rfl, h1, h2⟩
    exact Matches.starCons (ih s1 h1) h2

theorem rderiv_complete (r : RE) (c : Char) :
    ∀ s : List Char, Matches r (c :: s) → Matches (rderiv r c) s := by
  induction r with
  | empty => intro s h; cases h
  | eps => intro s h; cases h
  | lit d =>
    intro s h
    cases h
    rw [rderiv, if_pos rfl]
    exact Matches.eps
  | dot =>
    intro s h
    cases h
    rw [rderiv]
    exact Matches.eps
  | seq r1 r2 ih1 ih2 =>
    intro s h
    rcases seq_inv h with ⟨s1, s2, he, h1, h2⟩
    cases s1 with
    | nil =>
      have hn : nullable r1 = true := (nullable_iff r1).mpr h1
      rw [rderiv, if_pos hn]
      apply Matches.altR
      apply ih2
      have hs2 : s2 = c :: s := by simpa using he.symm
      rw [hs2] at h2
      exact h2
    | cons d s1 =>
      have hd : d = c := by
        have := congrArg (fun l => List.head? l) he
        simp at this
        exact this.symm
      have hs : s = s1 ++ s2 := by
        have := congrArg (fun l => List.tail l) he
        simpa using this
      subst hd
      have hmem : Matches (.seq (rderiv r1 d) r2) s := by
        rw [hs]
        exact Matches.seq (ih1 s1 h1) h2
      by_cases hn : nullable r1 = true
      · rw [rderiv, if_pos hn]
        exact Matches.altL hmem
      · rw [rderiv, if_neg hn]
        exact hmem
  | alt r1 r2 ih1 ih2 =>
    intro s h
    rw [rderiv]
    rcases alt_inv h with h | h
    · exact Matches.altL (ih1 s h)
    · exact Matches.altR (ih2 s h)
  | star r1 ih =>
    intro s h
    rcases star_cons_inv h with ⟨s1, s2, rfl, h1, h2⟩
    rw [rderiv]
    exact Matches.seq (ih s1 h1) h2

/-- `matchHere` decides "some prefix of `s` is matched by `r`". -/
theorem matchHere_iff (r : RE) (s : List Char) :
    matchHere r s = true ↔ ∃ p q, s = p ++ q ∧ Matches r p := by
  induction s generalizing r with
  | nil =>
    rw [matchHere, nullable_iff]
    constructor
    · intro h
      exact ⟨[], [], rfl, h⟩
    · rintro ⟨p, q, hpq, hm⟩
      rcases List.append_eq_nil.mp hpq.symm with ⟨hp, _⟩
      rw [hp] at hm
      exact hm
  | cons c s ih =>
    rw [matchHere, Bool.or_eq_true, nullable_iff, ih (rderiv r c)]
    constructor
    · rintro (h | ⟨p, q, hpq, hm⟩)
      · exact ⟨[], c :: s, rfl, h⟩
      · refine ⟨c :: p, q, ?_, rderiv_sound r c p hm⟩
        rw [hpq]
        rfl
    · rintro ⟨p, q, hpq, hm⟩
      cases p with
      | nil =>
        left
        exact hm
      | cons d p =>
        right
        have hd : c = d := by
          have := congrArg (fun l => List.head? l) hpq
          simpa using this
        have hs : s = p ++ q := by
          have := congrArg (fun l => List.tail l) hpq
          simpa using this
        refine ⟨p, q, hs, ?_⟩
        apply rderiv_complete
        rw [hd]
        exact hm

/-- `reSearch` decides "some substring of `s`, at any position, is matched
by `r`": Python search semantics, unanchored. -/
theorem reSearch_iff (r : RE) (s : List Char) :
    reSearch r s = true ↔ ∃ u p q, s = (u ++ p) ++ q ∧ Matches r p := by
  induction s with
  | nil =>
    rw [reSearch, nullable_iff]
    constructor
    · intro h
      exact ⟨[], [], [], rfl, h⟩
    · rintro ⟨u, p, q, hpq, hm⟩
      rcases List.append_eq_nil.mp hpq.symm with ⟨hup, _⟩
      rcases List.append_eq_nil.mp hup with ⟨_, hp⟩
      rw [hp] at hm
      exact hm
  | cons c s ih =>
    rw [reSearch, Bool.or_eq_true, matchHere_iff, ih]
    constructor
    · rintro (⟨p, q, hpq, hm⟩ | ⟨u, p, q, hpq, hm⟩)
      · exact ⟨[], p, q, by simpa using hpq, hm⟩
      · refine ⟨c :: u, p, q, ?_, hm⟩
        rw [hpq]
        rfl
    · rintro ⟨u, p, q, hpq, hm⟩
      cases u with
      | nil =>
        left
        exact ⟨p, q, by simpa using hpq, hm⟩
      | cons d u =>
        right
        have hs : s = (u ++ p) ++ q := by
          have := congrArg (fun l => List.tail l) hpq
          simpa using this
        exact ⟨u, p, q, hs, hm⟩

theorem patternSearch_iff (anch : Bool) (r : RE) (s : List Char) :
    patternSearch (anch, r) s = true ↔ SearchSem anch r s := by
  cases anch with
  | false =>
    rw [patternSearch, SearchSem]
    simp only [if_neg Bool.false_ne_true, Bool.false_eq_true, if_false]
    exact reSearch_iff r s
  | true =>
    rw [patternSearch, SearchSem]
    simp only [if_pos rfl, if_true]
    exact matchHere_iff r s

/-! ### Driver-level lemmas -/

/-- The two `BEq (List Char)` instances in scope (the structural one and
the one derived from decidable equality) count identically. -/
theorem count_listChar_eq (x : List Char) (l : List (List Char)) :
    List.count x l = @List.count (List Char) instBEqOfDecidableEq x l := by
  induction l with
  | nil => rfl
  | cons a l ih =>
    rw [List.count_cons, @List.count_cons (List Char) instBEqOfDecidableEq x a l, ih]
    by_cases h : a = x
    · simp [h]
    · simp [h]

theorem mem_map_swap (t : List (List Char × Nat)) (n : Nat) (x : List Char) :
    (n, x) ∈ t.map (fun p => (p.2, p.1)) ↔ (x, n) ∈ t := by
  rw [List.mem_map]
  constructor
  · rintro ⟨p, hp, he⟩
    obtain ⟨a, b⟩ := p
    have hb : b = n := congrArg Prod.fst he
    have ha : a = x := congrArg Prod.snd he
    rw [← ha, ← hb]
    exact hp
  · intro h
    exact ⟨(x, n), h, rfl⟩

theorem map_swap_nodup (t : List (List Char × Nat)) (h : t.Nodup) :
    (t.map (fun p => (p.2, p.1))).Nodup := by
  apply h.map
  intro p q hpq
  obtain ⟨a, b⟩ := p
  obtain ⟨c, d⟩ := q
  have h1 : b = d := congrArg Prod.fst hpq
  have h2 : a = c := congrArg Prod.snd hpq
  rw [h1, h2]

/-- Sorting then run-length counting produces, as a multiset, exactly the
swapped entries of the global tally. -/
theorem count_adjacent_sorted_perm_tally (L : List (List Char)) :
    List.Perm (count_adjacent (pySorted strLe L))
      ((tally L).map (fun p => (p.2, p.1))) := by
  have hsorted : List.Pairwise (fun s t => strLe s t = true) (pySorted strLe L) :=
    pairwise_pySorted strLe strLe_total strLe_trans L
  have hpermL : List.Perm (pySorted strLe L) L := perm_pySorted strLe L
  have hnd1 : (count_adjacent (pySorted strLe L)).Nodup :=
    count_adjacent_sorted_nodup _ hsorted
  have hnd2 : ((tally L).map (fun p => (p.2, p.1))).Nodup :=
    map_swap_nodup _ ((tally_fst_nodup L).of_map _)
  apply (List.perm_ext_iff_of_nodup hnd1 hnd2).mpr
  intro p
  obtain ⟨n, x⟩ := p
  rw [mem_count_adjacent_sorted _ hsorted n x, mem_map_swap, mem_tally]
  have hcnt : List.count x (pySorted strLe L)
      = @List.count (List Char) instBEqOfDecidableEq x L := by
    rw [count_listChar_eq]
    exact hpermL.count_eq x
  constructor
  · rintro ⟨hx, hn⟩
    refine ⟨hpermL.mem_iff.mp hx, ?_⟩
    rw [hn]
    exact hcnt
  · rintro ⟨hx, hn⟩
    refine ⟨hpermL.mem_iff.mpr hx, ?_⟩
    rw [hn]
    exact hcnt.symm

/-- Driver A and Driver B produce the same multiset of pairs. -/
theorem driverA_perm_driverB (lines : List (List Char)) :
    List.Perm (driverA lines) (driverB lines) := by
  rw [driverA, driverB, sortedRev, most_common]
  apply List.Perm.trans (perm_pySorted _ _)
  apply List.Perm.trans
    (count_adjacent_sorted_perm_tally (search_and_replace lines importTerm []))
  exact ((perm_pySorted _ _).map _).symm

theorem pairLe_rev_iff (p q : Nat × List Char) :
    pairLe q p = true ↔ (q.1 < p.1 ∨ (p.1 = q.1 ∧ strLe q.2 p.2 = true)) := by
  rw [pairLe]
  by_cases h : q.1 = p.1
  · rw [if_pos h]
    constructor
    · intro hs
      right
      exact ⟨h.symm, hs⟩
    · rintro (hlt | ⟨he, hs⟩)
      · omega
      · exact hs
  · rw [if_neg h]
    constructor
    · intro hd
      left
      exact of_decide_eq_true hd
    · rintro (hlt | ⟨he, hs⟩)
      · exact decide_eq_true hlt
      · exact absurd he.symm h

/-- Driver A's final sort is sorted with respect to the reversed pair
comparison. -/
theorem driverA_pairwise (lines : List (List Char)) :
    List.Pairwise (fun p q => q.1 < p.1 ∨ (p.1 = q.1 ∧ strLe q.2 p.2 = true))
      (driverA lines) := by
  rw [driverA, sortedRev]
  have h := pairwise_pySorted (fun p q => pairLe q p)
    (fun x y => pairLe_total y x)
    (fun x y z h1 h2 => pairLe_trans z y x h2 h1)
    (count_adjacent (pySorted strLe (search_and_replace lines importTerm [])))
  exact h.imp (fun hab => (pairLe_rev_iff _ _).mp hab)

/-- Driver B's entries are sorted by count descending. -/
theorem driverB_pairwise (lines : List (List Char)) :
    List.Pairwise (fun p q : Nat × List Char => q.1 ≤ p.1) (driverB lines) := by
  rw [driverB, most_common]
  have h := pairwise_pySorted (fun p q : List Char × Nat => decide (q.2 ≤ p.2))
    (fun x y => by
      rcases Nat.le_total x.2 y.2 with h | h
      · right
        exact decide_eq_true h
      · left
        exact decide_eq_true h)
    (fun x y z h1 h2 =>
      decide_eq_true (Nat.le_trans (of_decide_eq_true h2) (of_decide_eq_true h1)))
    (tally (search_and_replace lines importTerm []))
  apply List.Pairwise.map
  · intro a b hab
    exact of_decide_eq_true hab
  · exact h

/-- Ties in Driver B keep the tally's insertion order: restricting the
output to one count value gives exactly the tally entries with that count,
in tally order. -/
theorem driverB_filter_count (lines : List (List Char)) (c : Nat) :
    (driverB lines).filter (fun p => decide (p.1 = c))
      = ((tally (search_and_replace lines importTerm [])).filter
          (fun q => decide (q.2 = c))).map (fun p => (p.2, p.1)) := by
  rw [driverB, most_common]
  rw [List.filter_map]
  have hstable := filter_pySorted (fun p q : List Char × Nat => decide (q.2 ≤ p.2))
    (fun q => decide (q.2 = c))
    (fun a b ha hb => by
      have ha2 : a.2 = c := of_decide_eq_true ha
      have hb2 : b.2 = c := of_decide_eq_true hb
      apply decide_eq_true
      rw [ha2, hb2])
    (tally (search_and_replace lines importTerm []))
  have hcomp : ((fun p : Nat × List Char => decide (p.1 = c)) ∘ fun p => (p.2, p.1))
      = fun q : List Char × Nat => decide (q.2 = c) := by
    funext q
    rfl
  rw [hcomp, hstable]

/-! ### Lemmas about the grep generator machine -/

/-- Once the pattern is compiled the scanning loop never raises. -/
theorem grepResume_ne_raise (p : Bool × RE) (ls : List (List Char))
    (e : PatternError) : grepResume p ls ≠ GrepStep.raise e := by
  induction ls with
  | nil => simp [grepResume]
  | cons line rest ih =>
    rw [grepResume]
    by_cases h : patternSearch p line = true
    · rw [if_pos h]
      simp
    · rw [if_neg h]
      exact ih

/-- Every state yielded by the scanning loop carries the same compiled
pattern: it is compiled once and reused. -/
theorem grepResume_yield_state (p : Bool × RE) (ls : List (List Char))
    (line : List Char) (g : GrepGen) :
    grepResume p ls = GrepStep.yield line g → ∃ rest, g = GrepGen.running p rest := by
  induction ls with
  | nil =>
    intro h
    simp [grepResume] at h
  | cons l rest ih =>
    rw [grepResume]
    by_cases h : patternSearch p l = true
    · rw [if_pos h]
      intro he
      injection he with h1 h2
      exact ⟨rest, h2.symm⟩
    · rw [if_neg h]
      exact ih

/-! ### The claims -/

/-- C1: for every finite input sequence, `count_adjacent` yields exactly one
`(count, element)` pair per maximal run of consecutive equal elements, in
input order, each count positive and equal to the run length (equivalently:
all counts are positive, adjacent pairs carry distinct elements, and
replaying each pair as `count` copies of `element` reproduces the input);
on `['a','a','a','b','c','c']` it yields `[(3,'a'),(1,'b'),(2,'c')]`. -/
theorem claim_C1 :
    (∀ (α : Type) (_inst : DecidableEq α) (l : List α),
        (∀ p ∈ count_adjacent l, 0 < p.1)
          ∧ List.Chain' (fun p q : Nat × α => p.2 ≠ q.2) (count_adjacent l)
          ∧ (count_adjacent l).flatMap (fun p => List.replicate p.1 p.2) = l)
      ∧ count_adjacent (['a', 'a', 'a', 'b', 'c', 'c'] : List Char)
          = [(3, 'a'), (1, 'b'), (2, 'c')] := by
  constructor
  · intro α _inst l
    exact ⟨count_adjacent_pos l, count_adjacent_chain l, count_adjacent_flatMap l⟩
  · simp [count_adjacent, List.takeWhile, List.dropWhile]

/-- C2 counterexample: on the lines `"a"`, `"b"` Driver A outputs
`[(1,"b"),(1,"a")]`: the tie between equal counts is broken by descending,
not ascending, element order, refuting the claimed ordering. -/
theorem claim_C2_counterexample :
    driverA [['a'], ['b']] = [(1, ['b']), (1, ['a'])]
      ∧ ¬ List.Pairwise (fun p q : Nat × List Char =>
            q.1 < p.1 ∨ (p.1 = q.1 ∧ strLe p.2 q.2 = true))
          (driverA [['a'], ['b']]) := by
  have h : driverA [['a'], ['b']] = [(1, ['b']), (1, ['a'])] := by
    simp [driverA, search_and_replace, pyReplace, replaceCore, prefixMatch, importTerm,
      pySorted, insertOrd, strLe, count_adjacent, sortedRev, pairLe]
  refine ⟨h, ?_⟩
  rw [h]
  decide

/-- C2 amended: Driver A's final output is sorted by count descending with
ties between equal counts broken by descending (reverse alphabetical) order
of the element text, as given by `sorted(..., reverse=True)` reversing the
default comparison of the `(count, element)` pairs. -/
theorem claim_C2_amended (lines : List (List Char)) :
    List.Pairwise (fun p q => q.1 < p.1 ∨ (p.1 = q.1 ∧ strLe q.2 p.2 = true))
      (driverA lines) :=
  driverA_pairwise lines

/-- C3 counterexample: with empty search string and replacement `"x"`,
the replacer maps `"a"` to `"xax"`, not to `"a"`: empty search is not a
no-op. -/
theorem claim_C3_counterexample :
    search_and_replace [['a']] [] ['x'] = [['x', 'a', 'x']]
      ∧ search_and_replace [['a']] [] ['x'] ≠ [['a']] := by
  constructor
  · rfl
  · decide

/-- C3 amended: the replacer never fails (it is a total function); with an
empty search string it inserts the replacement before, between and after
the characters of every string, which is a no-op exactly when the
replacement is empty too. -/
theorem claim_C3_amended :
    (∀ (l : List (List Char)) (new : List Char),
        search_and_replace l [] new
          = l.map (fun s => new ++ s.flatMap (fun c => c :: new)))
      ∧ (∀ l : List (List Char), search_and_replace l [] [] = l) := by
  constructor
  · intro l new
    rw [search_and_replace]
    apply List.map_congr_left
    intro s _
    exact pyReplace_nil s new
  · intro l
    rw [search_and_replace]
    have h : ∀ s ∈ l, pyReplace s [] [] = s := fun s _ => pyReplace_nil_nil s
    exact (List.map_congr_left h).trans (List.map_id l)

/-- C4 counterexample: constructing the `grep` generator with the invalid
pattern `'('` succeeds (generator bodies run lazily, so nothing is compiled
at construction time); the `PatternError` is raised only at the first
`next()`. -/
theorem claim_C4_counterexample :
    compile ['('] = Except.error (PatternError.err "missing ), unterminated subpattern")
      ∧ grepCall [['a']] ['('] = Except.ok (GrepGen.start [['a']] ['('])
      ∧ grepNext (GrepGen.start [['a']] ['('])
          = GrepStep.raise (PatternError.err "missing ), unterminated subpattern") :=
  ⟨rfl, rfl, rfl⟩

/-- C4 amended: constructing the generator never raises; an invalid pattern
raises its `PatternError` at the first retrieval, before any input element
is examined; and after a successful compilation the compiled pattern is
reused unchanged for every element (the scanning loop never raises and
every yielded successor state carries the same compiled pattern). -/
theorem claim_C4_amended (lines : List (List Char)) (pat : List Char)
    (e : PatternError) (h : compile pat = Except.error e) :
    grepCall lines pat = Except.ok (GrepGen.start lines pat)
      ∧ grepNext (GrepGen.start lines pat) = GrepStep.raise e
      ∧ (∀ (p : Bool × RE) (ls : List (List Char)) (e2 : PatternError),
          grepResume p ls ≠ GrepStep.raise e2)
      ∧ (∀ (p : Bool × RE) (ls : List (List Char)) (line : List Char) (g : GrepGen),
          grepResume p ls = GrepStep.yield line g
            → ∃ rest, g = GrepGen.running p rest) := by
  refine ⟨rfl, ?_, grepResume_ne_raise, grepResume_yield_state⟩
  rw [grepNext, h]

theorem claim_C4_witness :
    compile ['('] = Except.error (PatternError.err "missing ), unterminated subpattern")
      ∧ (grepCall [] ['('] = Except.ok (GrepGen.start [] ['('])
          ∧ grepNext (GrepGen.start [] ['('])
              = GrepStep.raise (PatternError.err "missing ), unterminated subpattern")
          ∧ (∀ (p : Bool × RE) (ls : List (List Char)) (e2 : PatternError),
              grepResume p ls ≠ GrepStep.raise e2)
          ∧ (∀ (p : Bool × RE) (ls : List (List Char)) (line : List Char) (g : GrepGen),
              grepResume p ls = GrepStep.yield line g
                → ∃ rest, g = GrepGen.running p rest)) :=
  ⟨rfl, claim_C4_amended [] ['('] (PatternError.err "missing ), unterminated subpattern") rfl⟩

/-- C5: for every finite input, summing the run-length counter's counts
grouped by element gives each element's total occurrence count, and the sum
of all counts is the input length. -/
theorem claim_C5 :
    ∀ (α : Type) (_inst : DecidableEq α) (l : List α),
      (∀ x : α,
          (((count_adjacent l).filter (fun p => decide (p.2 = x))).map Prod.fst).sum
            = l.count x)
        ∧ ((count_adjacent l).map Prod.fst).sum = l.length := by
  intro α _inst l
  exact ⟨fun x => count_adjacent_count l x, count_adjacent_sum l⟩

/-- C6: whenever the pattern compiles, `grep` yields exactly the input
strings the compiled pattern matches, where matching is Python search
semantics (a match anywhere, anchored only when the pattern itself anchors,
never a required full match); `^import` on the three example lines keeps
exactly the two `import` lines, and empty input gives empty output. -/
theorem claim_C6 (lines : List (List Char)) (pattern : List Char)
    (p : Bool × RE) (h : compile pattern = Except.ok p) :
    grep lines pattern = Except.ok (lines.filter (fun s => patternSearch p s))
      ∧ (∀ s, patternSearch p s = true ↔ SearchSem p.1 p.2 s)
      ∧ grep ["import os".toList, "from x import y".toList, "import sys".toList]
          "^import".toList = Except.ok ["import os".toList, "import sys".toList]
      ∧ grep [] pattern = Except.ok [] := by
  refine ⟨?_, ?_, by rfl, ?_⟩
  · rw [grep, h]
  · intro s
    obtain ⟨anch, r⟩ := p
    exact patternSearch_iff anch r s
  · rw [grep, h]
    rfl

theorem claim_C6_witness :
    compile ['a'] = Except.ok (false, RE.seq (RE.lit 'a') RE.eps)
      ∧ (grep [['b', 'a']] ['a']
            = Except.ok ([['b', 'a']].filter
                (fun s => patternSearch (false, RE.seq (RE.lit 'a') RE.eps) s))
          ∧ (∀ s, patternSearch (false, RE.seq (RE.lit 'a') RE.eps) s = true
              ↔ SearchSem false (RE.seq (RE.lit 'a') RE.eps) s)
          ∧ grep ["import os".toList, "from x import y".toList, "import sys".toList]
              "^import".toList = Except.ok ["import os".toList, "import sys".toList]
          ∧ grep [] ['a'] = Except.ok []) :=
  ⟨rfl, claim_C6 [['b', 'a']] ['a'] (false, RE.seq (RE.lit 'a') RE.eps) rfl⟩

/-- C7: given the same lines reaching the replacer stage, Driver A and
Driver B produce the same multiset of `(count, name)` pairs. -/
theorem claim_C7 (lines : List (List Char)) :
    List.Perm (driverA lines) (driverB lines) :=
  driverA_perm_driverB lines

/-- C8: Driver B's entries are ordered by descending count; entries with
equal count appear in the tally's first-seen (insertion) order of the
element, the tally keys being exactly the distinct elements in first-seen
order. -/
theorem claim_C8 (lines : List (List Char)) :
    List.Pairwise (fun p q : Nat × List Char => q.1 ≤ p.1) (driverB lines)
      ∧ (∀ c : Nat,
          ((driverB lines).filter (fun p => decide (p.1 = c))).map Prod.snd
            = ((tally (search_and_replace lines importTerm [])).filter
                (fun q => decide (q.2 = c))).map Prod.fst)
      ∧ (tally (search_and_replace lines importTerm [])).map Prod.fst
          = firstSeen (search_and_replace lines importTerm []) := by
  refine ⟨driverB_pairwise lines, ?_, tally_fst_firstSeen _⟩
  intro c
  rw [driverB_filter_count, List.map_map]
  rfl

/-- C9: for a non-empty search term, once the first application's output
contains no occurrence of the search term, a second application with the
same arguments changes nothing; any string with no occurrence of the search
term passes through unchanged. -/
theorem claim_C9 (search new : List Char) (hne : search ≠ []) :
    (∀ l : List (List Char),
        (∀ s ∈ search_and_replace l search new, hasSubstr s search = false) →
          search_and_replace (search_and_replace l search new) search new
            = search_and_replace l search new)
      ∧ (∀ s : List Char, hasSubstr s search = false → pyReplace s search new = s) := by
  constructor
  · intro l h
    rw [search_and_replace]
    have h2 : ∀ s ∈ search_and_replace l search new, pyReplace s search new = s :=
      fun s hs => pyReplace_of_no_occurrence s search new hne (h s hs)
    exact (List.map_congr_left h2).trans (List.map_id _)
  · intro s h
    exact pyReplace_of_no_occurrence s search new hne h

theorem claim_C9_witness :
    (['a'] : List Char) ≠ []
      ∧ ((∀ l : List (List Char),
            (∀ s ∈ search_and_replace l ['a'] ['b'], hasSubstr s ['a'] = false) →
              search_and_replace (search_and_replace l ['a'] ['b']) ['a'] ['b']
                = search_and_replace l ['a'] ['b'])
          ∧ (∀ s : List Char, hasSubstr s ['a'] = false → pyReplace s ['a'] ['b'] = s)) :=
  ⟨by decide, claim_C9 ['a'] ['b'] (by decide)⟩

/-- C10: whatever the pattern, a successful `grep` output is a subsequence
of its input: order is preserved, each input occurrence contributes at most
one output occurrence, and nothing outside the input appears. -/
theorem claim_C10 (lines : List (List Char)) (pattern : List Char)
    (out : List (List Char)) (h : grep lines pattern = Except.ok out) :
    List.Sublist out lines
      ∧ (∀ x, out.count x ≤ lines.count x)
      ∧ (∀ x ∈ out, x ∈ lines) := by
  have hfil : ∃ p, out = lines.filter (fun line => patternSearch p line) := by
    rw [grep] at h
    cases hc : compile pattern with
    | error e =>
      rw [hc] at h
      cases h
    | ok p =>
      rw [hc] at h
      exact ⟨p, (Except.ok.inj h).symm⟩
  obtain ⟨p, rfl⟩ := hfil
  refine ⟨List.filter_sublist lines, ?_, ?_⟩
  · intro x
    exact (List.filter_sublist lines).count_le x
  · intro x hx
    exact (List.filter_sublist lines).subset hx

theorem claim_C10_witness :
    grep [['a']] ['a'] = Except.ok [['a']]
      ∧ (List.Sublist [['a']] [['a']]
          ∧ (∀ x : List Char, List.count x [['a']] ≤ List.count x [['a']])
          ∧ (∀ x ∈ ([['a']] : List (List Char)), x ∈ ([['a']] : List (List Char)))) :=
  ⟨rfl, claim_C10 [['a']] ['a'] [['a']] rfl⟩
